import Mathlib

set_option maxRecDepth 100000

/-!
Verification of the variant-23 UVM toolchain: the assembler encoder
(src/assembler/assembler.py), the interpreter decoder and the stack-machine
executor (src/interpreter/interpreter.py), shallowly embedded in Lean.

Bytes are modelled as `Nat` (a Python `bytes` element lies in [0, 256)),
Python integers as `Int`, and Python exceptions as explicit error values.
Bitwise operations on `Int` use Mathlib `Int.lor`, `Int.land`, `<<<`, `>>>`,
whose semantics coincide with Python two-complement bitwise arithmetic.
-/

namespace UVM

/-- One IR instruction: mnemonic `op`, opcode field `A`, optional operand `B`
(mirrors the `IRInstr` dataclass shared by assembler.py and interpreter.py). -/
structure IRInstr where
  op : String
  A : Int
  B : Option Int := none
deriving DecidableEq, Repr

/-- Variant 23 opcode table of assembler.py (`OPCODES`). -/
def OPCODES (op : String) : Option Int :=
  if op = "LOAD_CONST" then some 14
  else if op = "READ_MEM" then some 38
  else if op = "WRITE_MEM" then some 27
  else if op = "LE" then some 12
  else none

/-- The IR value `build_ir` produces for a `LOAD_CONST` line:
`IRInstr(op="LOAD_CONST", A=14, B=value)`. -/
def LOAD_CONST (b : Int) : IRInstr := { op := "LOAD_CONST", A := 14, B := some b }

/-- The IR value `build_ir` produces for a `READ_MEM` line. -/
def READ_MEM : IRInstr := { op := "READ_MEM", A := 38 }

/-- The IR value `build_ir` produces for a `WRITE_MEM` line. -/
def WRITE_MEM : IRInstr := { op := "WRITE_MEM", A := 27 }

/-- The IR value `build_ir` produces for an `LE` line. -/
def LE : IRInstr := { op := "LE", A := 12 }

/-- Function `encode` of assembler.py: LOAD_CONST becomes the 16-bit little-endian
word `A | (B << 6)` (low byte first); every other opcode becomes the single
byte `A & 0xFF`.  Python `x << 6` on an arbitrary int is `x <<< 6`, and the
byte extractions `w & 0xFF` and `(w >> 8) & 0xFF` are `Int.land` / `>>>`.
A LOAD_CONST produced by `build_ir` or `decode` always carries an operand,
so the `getD 0` default is never reached on inputs of interest. -/
def encode : List IRInstr → List Nat
  | [] => []
  | ins :: rest =>
    (if ins.op = "LOAD_CONST" then
      let word : Int := Int.lor ins.A ((ins.B.getD 0) <<< (6 : Int))
      [(Int.land word 0xFF).toNat, (Int.land (word >>> (8 : Int)) 0xFF).toNat]
    else
      [(Int.land ins.A 0xFF).toNat]) ++ encode rest

/-- Interpreter opcode constants (interpreter.py). -/
def A_LOAD_CONST : Nat := 14

/-- Interpreter opcode constant for READ_MEM. -/
def A_READ_MEM : Nat := 38

/-- Interpreter opcode constant for WRITE_MEM. -/
def A_WRITE_MEM : Nat := 27

/-- Interpreter opcode constant for LE. -/
def A_LE : Nat := 12

/-- The `one_byte` lookup dictionary inside `decode`. -/
def one_byte (b : Nat) : Option String :=
  if b = A_READ_MEM then some "READ_MEM"
  else if b = A_WRITE_MEM then some "WRITE_MEM"
  else if b = A_LE then some "LE"
  else none

/-- The two `SystemExit` failures raised by `decode`. -/
inductive DecodeError where
  | truncated (offset : Nat)
  | unknownWord (word : Nat) (A : Nat) (offset : Nat)
deriving DecidableEq, Repr

/-- The `while i < n` loop of `decode` (interpreter.py), with `i` the cursor
offset carried for error reporting.  A byte equal to one of the `one_byte`
keys is emitted as that 1-byte instruction and the cursor advances by 1;
otherwise two bytes are reassembled into the little-endian word
`b0 | (b1 << 8)`, `A = word & 0x3F` must be 14, and a LOAD_CONST with
operand `B = word >> 6` is emitted with the cursor advancing by 2. -/
def decodeFrom : List Nat → Nat → Except DecodeError (List IRInstr)
  | [], _ => .ok []
  | b0 :: rest, i =>
    match one_byte b0 with
    | some op =>
      match decodeFrom rest (i + 1) with
      | .ok tail => .ok ({ op := op, A := (b0 : Int) } :: tail)
      | .error e => .error e
    | none =>
      match rest with
      | [] => .error (.truncated i)
      | b1 :: rest2 =>
        let word := b0 ||| (b1 <<< 8)
        let A := word &&& 0x3F
        let B := word >>> 6
        if A ≠ A_LOAD_CONST then .error (.unknownWord word A i)
        else
          match decodeFrom rest2 (i + 2) with
          | .ok tail =>
            .ok ({ op := "LOAD_CONST", A := (A_LOAD_CONST : Int), B := some (B : Int) } :: tail)
          | .error e => .error e

/-- Function `decode` of interpreter.py: run the cursor loop from offset 0. -/
def decode (code : List Nat) : Except DecodeError (List IRInstr) :=
  decodeFrom code 0

/-- The `RuntimeError` failures raised by the VM, one constructor per
distinct `raise` site in interpreter.py. -/
inductive RunError where
  | stackUnderflow
  | readAddrOutOfRange (addr : Int)
  | writeAddrOutOfRange (addr : Int)
  | leNotImplemented
  | unknownOp (op : String)
  | badOperand
deriving DecidableEq, Repr

/-- Machine state of the `VM` class: code memory, data memory, stack.
The stack grows at the tail (`list.append` / `list.pop`). -/
structure VM where
  code_memory : List IRInstr
  data_memory : List Int
  stack : List Int
deriving DecidableEq, Repr

/-- Constructor `VM.__init__(mem_size)`: empty code memory, `[0] * mem_size` data
memory, empty stack. -/
def VM.init (mem_size : Nat) : VM :=
  { code_memory := [], data_memory := List.replicate mem_size 0, stack := [] }

/-- Method `VM.push`: append to the tail of the stack. -/
def VM.push (vm : VM) (v : Int) : VM :=
  { vm with stack := vm.stack ++ [v] }

/-- Method `VM.pop`: raise `Stack underflow` on an empty stack, otherwise remove
and return the last element. -/
def VM.pop (vm : VM) : Except RunError (Int × VM) :=
  match vm.stack.getLast? with
  | none => .error .stackUnderflow
  | some v => .ok (v, { vm with stack := vm.stack.dropLast })

/-- Method `VM.exec_one`: execute one instruction.  On failure the error carries
the machine state at the point of the raise (a Python exception leaves the
mutations already performed in place, e.g. pops that preceded a bounds
failure). -/
def VM.exec_one (vm : VM) (ins : IRInstr) : Except (RunError × VM) VM :=
  if ins.op = "LOAD_CONST" then
    match ins.B with
    | some b => .ok (vm.push b)
    | none => .error (.badOperand, vm)
  else if ins.op = "READ_MEM" then
    match vm.pop with
    | .error e => .error (e, vm)
    | .ok (addr, vm1) =>
      if addr < 0 ∨ (vm1.data_memory.length : Int) ≤ addr then
        .error (.readAddrOutOfRange addr, vm1)
      else
        .ok (vm1.push (vm1.data_memory.getD addr.toNat 0))
  else if ins.op = "WRITE_MEM" then
    match vm.pop with
    | .error e => .error (e, vm)
    | .ok (value, vm1) =>
      match vm1.pop with
      | .error e => .error (e, vm1)
      | .ok (addr, vm2) =>
        if addr < 0 ∨ (vm2.data_memory.length : Int) ≤ addr then
          .error (.writeAddrOutOfRange addr, vm2)
        else
          .ok { vm2 with data_memory := vm2.data_memory.set addr.toNat value }
  else if ins.op = "LE" then
    .error (.leNotImplemented, vm)
  else
    .error (.unknownOp ins.op, vm)

/-- The `for ins in self.code_memory` loop of `VM.run`: execute the
instructions in order, stopping at the first failure. -/
def VM.runList (vm : VM) : List IRInstr → Except (RunError × VM) VM
  | [] => .ok vm
  | ins :: rest =>
    match vm.exec_one ins with
    | .ok vm1 => vm1.runList rest
    | .error e => .error e

/-- Method `VM.run`: store the program in code memory, then execute it in order. -/
def VM.run (vm : VM) (ir : List IRInstr) : Except (RunError × VM) VM :=
  VM.runList { vm with code_memory := ir } ir

/-- A valid source-level instruction: one of the four opcodes, with the
LOAD_CONST operand in [0, 1023] (spec section 8, round-trip premise). -/
def ValidInstr (ins : IRInstr) : Prop :=
  (∃ b : Int, 0 ≤ b ∧ b ≤ 1023 ∧ ins = LOAD_CONST b) ∨
    ins = READ_MEM ∨ ins = WRITE_MEM ∨ ins = LE


/-- Case analysis of a successful `one_byte` lookup. -/
theorem one_byte_some (b0 : Nat) (op : String) (h : one_byte b0 = some op) :
    (b0 = 38 ∧ op = "READ_MEM") ∨ (b0 = 27 ∧ op = "WRITE_MEM") ∨
      (b0 = 12 ∧ op = "LE") := by
  unfold one_byte A_READ_MEM A_WRITE_MEM A_LE at h
  split_ifs at h with h1 h2 h3
  · exact Or.inl ⟨h1, (Option.some.inj h).symm⟩
  · exact Or.inr (Or.inl ⟨h2, (Option.some.inj h).symm⟩)
  · exact Or.inr (Or.inr ⟨h3, (Option.some.inj h).symm⟩)

/-- Unfolding of `decodeFrom` at a byte recognised by the `one_byte` table:
emit the 1-byte instruction, advance the cursor by 1, keep decoding. -/
theorem decodeFrom_cons_one (b0 : Nat) (op : String) (hb : one_byte b0 = some op)
    (bs : List Nat) (i : Nat) :
    decodeFrom (b0 :: bs) i =
      match decodeFrom bs (i + 1) with
      | .ok tail => .ok ({ op := op, A := (b0 : Int), B := none } :: tail)
      | .error e => .error e := by
  rcases one_byte_some b0 op hb with ⟨rfl, rfl⟩ | ⟨rfl, rfl⟩ | ⟨rfl, rfl⟩ <;> rfl

/-- C2: whenever the byte at the cursor is exactly 12, 27 or 38, the decoder
emits the corresponding single-byte instruction (LE, WRITE_MEM or READ_MEM,
no operand), advances the cursor by 1, and decodes the remaining bytes
independently of that classification, whatever the remaining bytes are. -/
theorem C2_greedy_one_byte (b0 : Nat) (rest : List Nat) (i : Nat)
    (h : b0 = 12 ∨ b0 = 27 ∨ b0 = 38) :
    ∃ op, one_byte b0 = some op ∧
      decodeFrom (b0 :: rest) i =
        match decodeFrom rest (i + 1) with
        | .ok tail => .ok ({ op := op, A := (b0 : Int), B := none } :: tail)
        | .error e => .error e := by
  rcases h with rfl | rfl | rfl
  · exact ⟨"LE", rfl, decodeFrom_cons_one 12 "LE" rfl rest i⟩
  · exact ⟨"WRITE_MEM", rfl, decodeFrom_cons_one 27 "WRITE_MEM" rfl rest i⟩
  · exact ⟨"READ_MEM", rfl, decodeFrom_cons_one 38 "READ_MEM" rfl rest i⟩

/-- C2 witness: the greedy rule at byte 12 with bytes [78, 1] remaining. -/
theorem C2_greedy_one_byte_witness :
    ∃ op, one_byte 12 = some op ∧
      decodeFrom [12, 78, 1] 0 =
        match decodeFrom [78, 1] 1 with
        | .ok tail => .ok ({ op := op, A := ((12 : Nat) : Int), B := none } :: tail)
        | .error e => .error e :=
  C2_greedy_one_byte 12 [78, 1] 0 (Or.inl rfl)

/-- C3: byte-exact encodings: `encode [LOAD_CONST 5] = [0x4E, 0x01]`
(low byte first) and the three single-byte opcodes. -/
theorem C3_byte_exact :
    encode [LOAD_CONST 5] = [0x4E, 0x01] ∧ encode [READ_MEM] = [0x26] ∧
      encode [WRITE_MEM] = [0x1B] ∧ encode [LE] = [0x0C] := by
  refine ⟨by decide, by decide, by decide, by decide⟩

/-- C6: when the byte at the cursor is not one of 12, 27, 38 and only one
byte remains, decoding fails with the truncated-stream error at that
offset. -/
theorem C6_truncated (b0 i : Nat) (h : ¬(b0 = 12 ∨ b0 = 27 ∨ b0 = 38)) :
    decodeFrom [b0] i = .error (.truncated i) := by
  push_neg at h
  obtain ⟨h12, h27, h38⟩ := h
  have hob : one_byte b0 = none := by
    unfold one_byte A_READ_MEM A_WRITE_MEM A_LE
    rw [if_neg h38, if_neg h27, if_neg h12]
  simp only [decodeFrom, hob]

/-- C6 witness: decoding the single byte 0x4E fails with TruncatedStream
at offset 0. -/
theorem C6_truncated_witness : decode [0x4E] = .error (.truncated 0) :=
  C6_truncated 0x4E 0 (by decide)

/-- C7: the byte 0x0C decodes to the single instruction LE, and executing
LE on any machine state fails with the unimplemented-opcode error, leaving
the stack and data memory untouched (no silent no-op). -/
theorem C7_le_always_fails :
    decode [0x0C] = .ok [LE] ∧
      ∀ vm : VM, VM.run vm [LE] =
        .error (.leNotImplemented, { vm with code_memory := [LE] }) :=
  ⟨rfl, fun _ => rfl⟩

/-- C7 witness: running [LE] on a fresh machine of size 4. -/
theorem C7_le_always_fails_witness :
    VM.run (VM.init 4) [LE] =
      .error (.leNotImplemented, { VM.init 4 with code_memory := [LE] }) :=
  (C7_le_always_fails).2 (VM.init 4)

/-- Popping from a stack whose tail element is known. -/
theorem VM.pop_concat (vm : VM) (l : List Int) (a : Int) (h : vm.stack = l ++ [a]) :
    vm.pop = .ok (a, { vm with stack := l }) := by
  simp [VM.pop, h]

/-- Unfolding of `exec_one` at a WRITE_MEM instruction. -/
theorem VM.exec_one_write (vm : VM) :
    vm.exec_one WRITE_MEM =
      match vm.pop with
      | .error e => .error (e, vm)
      | .ok (value, vm1) =>
        match vm1.pop with
        | .error e => .error (e, vm1)
        | .ok (addr, vm2) =>
          if addr < 0 ∨ (vm2.data_memory.length : Int) ≤ addr then
            .error (.writeAddrOutOfRange addr, vm2)
          else
            .ok { vm2 with data_memory := vm2.data_memory.set addr.toNat value } := rfl

/-- C4: on a fresh 1024-cell machine, `[LOAD_CONST 10, LOAD_CONST 99,
WRITE_MEM]` succeeds and stores 99 at address 10 (the value, pushed last,
is popped first, then the address); running `[LOAD_CONST 10, READ_MEM]` on
the resulting state then succeeds with 99 on top of the stack. -/
theorem C4_write_then_read :
    ∃ vm1 vm2 : VM,
      VM.run (VM.init 1024) [LOAD_CONST 10, LOAD_CONST 99, WRITE_MEM] = .ok vm1 ∧
        vm1.data_memory.getD 10 0 = 99 ∧
        VM.run vm1 [LOAD_CONST 10, READ_MEM] = .ok vm2 ∧
        vm2.stack.getLast? = some 99 := by
  refine ⟨_, _, rfl, ?_, rfl, ?_⟩ <;> rfl

/-- C5: `[LOAD_CONST 5000, LOAD_CONST 1, WRITE_MEM]` on a fresh 1024-cell
machine fails with the WRITE_MEM address-out-of-range error for address
5000 (both operands already popped); in general WRITE_MEM fails that way
whenever the popped address is negative or at least the memory size. -/
theorem C5_write_out_of_range :
    VM.run (VM.init 1024) [LOAD_CONST 5000, LOAD_CONST 1, WRITE_MEM] =
      .error (.writeAddrOutOfRange 5000,
        { code_memory := [LOAD_CONST 5000, LOAD_CONST 1, WRITE_MEM],
          data_memory := List.replicate 1024 0, stack := [] }) ∧
    ∀ (vm : VM) (s0 : List Int) (addr value : Int),
      vm.stack = s0 ++ [addr, value] →
      (addr < 0 ∨ (vm.data_memory.length : Int) ≤ addr) →
      vm.exec_one WRITE_MEM =
        .error (.writeAddrOutOfRange addr, { vm with stack := s0 }) := by
  constructor
  · rfl
  · intro vm s0 addr value hs hrange
    have h1 : vm.pop = .ok (value, { vm with stack := s0 ++ [addr] }) :=
      VM.pop_concat vm (s0 ++ [addr]) value (by simp [hs])
    have h2 : ({ vm with stack := s0 ++ [addr] } : VM).pop =
        .ok (addr, { vm with stack := s0 }) :=
      VM.pop_concat _ s0 addr rfl
    rw [VM.exec_one_write, h1]
    simp only [h2]
    rw [if_pos]
    exact hrange

/-- C5 witness: WRITE_MEM with popped address 3 against a 2-cell memory. -/
theorem C5_write_out_of_range_witness :
    (VM.mk [] [0, 0] [3, 1]).exec_one WRITE_MEM =
      .error (.writeAddrOutOfRange 3, VM.mk [] [0, 0] []) :=
  C5_write_out_of_range.2 (VM.mk [] [0, 0] [3, 1]) [] 3 1 rfl (Or.inr (by decide))

/-- The run loop splits over list append: run the prefix, and if it
succeeds continue from its final state. -/
theorem VM.runList_append (vm : VM) (xs ys : List IRInstr) :
    vm.runList (xs ++ ys) =
      match vm.runList xs with
      | .ok v => v.runList ys
      | .error e => .error e := by
  induction xs generalizing vm with
  | nil => rfl
  | cons x xs ih =>
    simp only [List.cons_append, VM.runList]
    cases vm.exec_one x with
    | ok v => exact ih v
    | error e => rfl

/-- C8: execution is strictly sequential and halts at the first failing
instruction: if the program splits as `pre ++ ins :: post`, running `pre`
alone yields state `s`, and `ins` fails from `s` leaving state `sf`, then
the whole run fails with that same error and state `sf` — the effects of
`pre` (and of any pops `ins` performed before failing) are retained, the
instructions after `ins` never execute, and nothing is rolled back. -/
theorem C8_halt_at_first_failure (vm : VM) (ir pre post : List IRInstr)
    (ins : IRInstr) (s sf : VM) (e : RunError)
    (hsplit : ir = pre ++ ins :: post)
    (hpre : VM.runList { vm with code_memory := ir } pre = .ok s)
    (hfail : s.exec_one ins = .error (e, sf)) :
    VM.run vm ir = .error (e, sf) := by
  subst hsplit
  unfold VM.run
  rw [VM.runList_append]
  simp only [hpre, VM.runList, hfail]

/-- C8 witness: in `[LOAD_CONST 7, WRITE_MEM, LOAD_CONST 3]` on a fresh
2-cell machine, WRITE_MEM underflows after popping the single stack entry;
the run stops there (the final LOAD_CONST never executes) and the state at
the fault has the 7 already pushed and popped again. -/
theorem C8_halt_at_first_failure_witness :
    VM.run (VM.mk [] [0, 0] []) [LOAD_CONST 7, WRITE_MEM, LOAD_CONST 3] =
      .error (.stackUnderflow,
        VM.mk [LOAD_CONST 7, WRITE_MEM, LOAD_CONST 3] [0, 0] []) :=
  C8_halt_at_first_failure (VM.mk [] [0, 0] [])
    [LOAD_CONST 7, WRITE_MEM, LOAD_CONST 3] [LOAD_CONST 7] [LOAD_CONST 3]
    WRITE_MEM (VM.mk [LOAD_CONST 7, WRITE_MEM, LOAD_CONST 3] [0, 0] [7])
    (VM.mk [LOAD_CONST 7, WRITE_MEM, LOAD_CONST 3] [0, 0] [])
    .stackUnderflow rfl rfl rfl

/-- Nat mask by 255 is reduction mod 256. -/
theorem and255_eq_mod (x : Nat) : x &&& 255 = x % 256 := by
  have h := Nat.and_pow_two_sub_one_eq_mod x 8
  norm_num at h
  exact h

/-- Nat mask by 63 is reduction mod 64. -/
theorem and63_eq_mod (x : Nat) : x &&& 63 = x % 64 := by
  have h := Nat.and_pow_two_sub_one_eq_mod x 6
  norm_num at h
  exact h

/-- Nat right shift by 8 is division by 256. -/
theorem shr8_eq_div (x : Nat) : x >>> 8 = x / 256 := by
  have h := Nat.shiftRight_eq_div_pow x 8
  norm_num at h
  exact h

/-- Nat right shift by 6 is division by 64. -/
theorem shr6_eq_div (x : Nat) : x >>> 6 = x / 64 := by
  have h := Nat.shiftRight_eq_div_pow x 6
  norm_num at h
  exact h

/-- Assembling the little-endian word from a low byte and a high byte. -/
theorem lor_shl8 (b0 b1 : Nat) (h : b0 < 256) : b0 ||| b1 <<< 8 = b0 + 256 * b1 := by
  rw [Nat.shiftLeft_eq]
  calc b0 ||| b1 * 2 ^ 8 = 2 ^ 8 * b1 ||| b0 := by rw [Nat.lor_comm, Nat.mul_comm]
    _ = 2 ^ 8 * b1 + b0 := (Nat.mul_add_lt_is_or (by omega) b1).symm
    _ = b0 + 256 * b1 := by omega

/-- Packing the opcode field 14 with an operand shifted into bits 6 and up. -/
theorem lor14_shl6 (b : Nat) : 14 ||| b <<< 6 = 14 + 64 * b := by
  rw [Nat.shiftLeft_eq]
  calc 14 ||| b * 2 ^ 6 = 2 ^ 6 * b ||| 14 := by rw [Nat.lor_comm, Nat.mul_comm]
    _ = 2 ^ 6 * b + 14 := (Nat.mul_add_lt_is_or (by omega) b).symm
    _ = 14 + 64 * b := by omega

/-- Mathlib `Int.lor` of 14 with a cast Nat agrees with Nat `lor`. -/
theorem int_lor14_cast (c : Nat) : Int.lor 14 ((c : Nat) : Int) = ((14 ||| c : Nat) : Int) := rfl

/-- Mathlib `Int.land` with 255 of a cast Nat agrees with Nat `land`. -/
theorem int_land255_cast (a : Nat) :
    Int.land ((a : Nat) : Int) 255 = ((a &&& 255 : Nat) : Int) := rfl

/-- Shifting a cast Nat left by 6 agrees with Nat shift. -/
theorem int_shl6_cast (a : Nat) :
    ((a : Nat) : Int) <<< (6 : Int) = ((a <<< 6 : Nat) : Int) := by
  show Int.ofNat (Nat.shiftLeft' false a 6) = _
  rw [Nat.shiftLeft'_false]
  rfl

/-- Shifting a cast Nat right by 8 agrees with Nat shift. -/
theorem int_shr8_cast (a : Nat) :
    ((a : Nat) : Int) >>> (8 : Int) = ((a >>> 8 : Nat) : Int) := rfl

/-- Computing `Int.toNat` of a cast Nat. -/
theorem int_toNat_cast (a : Nat) : ((a : Nat) : Int).toNat = a := rfl

/-- The two bytes `encode` emits for `LOAD_CONST` of a nonnegative operand:
the 16-bit word `14 + 64 * n` split little-endian. -/
theorem encode_cons_load (n : Nat) (rest : List IRInstr) :
    encode (LOAD_CONST (n : Int) :: rest) =
      (14 + 64 * n) % 256 :: (14 + 64 * n) / 256 % 256 :: encode rest := by
  have h1 : encode (LOAD_CONST (n : Int) :: rest) =
      (Int.land (Int.lor 14 (((n : Nat) : Int) <<< (6 : Int))) 255).toNat ::
        (Int.land ((Int.lor 14 (((n : Nat) : Int) <<< (6 : Int))) >>> (8 : Int)) 255).toNat ::
        encode rest := rfl
  rw [h1, int_shl6_cast, int_lor14_cast, int_shr8_cast, int_land255_cast,
    int_land255_cast, int_toNat_cast, int_toNat_cast, lor14_shl6,
    and255_eq_mod, and255_eq_mod, shr8_eq_div]

/-- The single byte `encode` emits for READ_MEM. -/
theorem encode_cons_read (rest : List IRInstr) :
    encode (READ_MEM :: rest) = 38 :: encode rest := by
  have h1 : encode (READ_MEM :: rest) = (Int.land 38 255).toNat :: encode rest := rfl
  rw [h1, show (Int.land 38 255).toNat = 38 by decide]

/-- The single byte `encode` emits for WRITE_MEM. -/
theorem encode_cons_write (rest : List IRInstr) :
    encode (WRITE_MEM :: rest) = 27 :: encode rest := by
  have h1 : encode (WRITE_MEM :: rest) = (Int.land 27 255).toNat :: encode rest := rfl
  rw [h1, show (Int.land 27 255).toNat = 27 by decide]

/-- The single byte `encode` emits for LE. -/
theorem encode_cons_le (rest : List IRInstr) :
    encode (LE :: rest) = 12 :: encode rest := by
  have h1 : encode (LE :: rest) = (Int.land 12 255).toNat :: encode rest := rfl
  rw [h1, show (Int.land 12 255).toNat = 12 by decide]

/-- Unfolding of `decodeFrom` at the two bytes of a LOAD_CONST word
`w = 14 + 64 * operand` with `w < 2^16`: the low byte hits no 1-byte
opcode, the word reassembles to `w`, its low 6 bits are 14, a LOAD_CONST
with operand `w / 64` is emitted and the cursor advances by 2. -/
theorem decodeFrom_cons_load (w : Nat) (h14 : w % 64 = 14) (_hw : w < 65536)
    (tail : List Nat) (i : Nat) :
    decodeFrom (w % 256 :: w / 256 :: tail) i =
      match decodeFrom tail (i + 2) with
      | .ok t => .ok ({ op := "LOAD_CONST", A := (A_LOAD_CONST : Int), B := some ((w / 64 : Nat) : Int) } :: t)
      | .error e => .error e := by
  have hb0 : w % 256 < 256 := Nat.mod_lt _ (by omega)
  have hmm : w % 256 % 64 = 14 := by omega
  have hne : one_byte (w % 256) = none := by
    unfold one_byte A_READ_MEM A_WRITE_MEM A_LE
    rw [if_neg (by omega), if_neg (by omega), if_neg (by omega)]
  have hword : (w % 256) ||| (w / 256) <<< 8 = w := by
    rw [lor_shl8 _ _ hb0]; omega
  simp only [decodeFrom, hne, hword, and63_eq_mod, shr6_eq_div, h14, A_LOAD_CONST]
  rw [if_neg (by omega : ¬(14 : Nat) ≠ 14)]

/-- C1: for every instruction list built from the four opcodes with each
LOAD_CONST operand in [0, 1023], decoding the encoder output returns
exactly the original list. -/
theorem C1_round_trip (ir : List IRInstr) (h : ∀ ins ∈ ir, ValidInstr ins) :
    decode (encode ir) = .ok ir := by
  suffices H : ∀ i, decodeFrom (encode ir) i = .ok ir from H 0
  induction ir with
  | nil => intro i; rfl
  | cons ins rest ih =>
    intro i
    have hins := h ins (List.mem_cons_self ins rest)
    have IH := ih (fun x hx => h x (List.mem_cons_of_mem _ hx))
    rcases hins with ⟨b, hb0, hb1, rfl⟩ | rfl | rfl | rfl
    · obtain ⟨n, rfl⟩ : ∃ n : Nat, b = (n : Int) :=
        ⟨b.toNat, (Int.toNat_of_nonneg hb0).symm⟩
      have hn : n ≤ 1023 := by exact_mod_cast hb1
      have hdiv : (14 + 64 * n) / 256 % 256 = (14 + 64 * n) / 256 := by omega
      rw [encode_cons_load, hdiv,
        decodeFrom_cons_load (14 + 64 * n) (by omega) (by omega), IH]
      have hop : (14 + 64 * n) / 64 = n := by omega
      rw [hop]
      rfl
    · rw [encode_cons_read, decodeFrom_cons_one 38 "READ_MEM" rfl, IH]
      rfl
    · rw [encode_cons_write, decodeFrom_cons_one 27 "WRITE_MEM" rfl, IH]
      rfl
    · rw [encode_cons_le, decodeFrom_cons_one 12 "LE" rfl, IH]
      rfl

/-- C1 witness: round trip of a program using all four opcodes. -/
theorem C1_round_trip_witness :
    decode (encode [LOAD_CONST 5, READ_MEM, WRITE_MEM, LE]) =
      .ok [LOAD_CONST 5, READ_MEM, WRITE_MEM, LE] :=
  C1_round_trip [LOAD_CONST 5, READ_MEM, WRITE_MEM, LE] (by
    intro ins hins
    simp only [List.mem_cons, List.not_mem_nil, or_false] at hins
    rcases hins with rfl | rfl | rfl | rfl
    · exact Or.inl ⟨5, by omega, by omega, rfl⟩
    · exact Or.inr (Or.inl rfl)
    · exact Or.inr (Or.inr (Or.inl rfl))
    · exact Or.inr (Or.inr (Or.inr rfl)))

/-- Unfolding of `decodeFrom` at a byte outside the `one_byte` table with at
least one further byte available: reassemble the word, check its low 6 bits
against 14, and either fail or emit a LOAD_CONST and advance by 2. -/
theorem decodeFrom_cons_two (b0 b1 : Nat) (hob : one_byte b0 = none)
    (bs : List Nat) (i : Nat) :
    decodeFrom (b0 :: b1 :: bs) i =
      if (b0 ||| b1 <<< 8) &&& 63 ≠ 14 then
        .error (.unknownWord (b0 ||| b1 <<< 8) ((b0 ||| b1 <<< 8) &&& 63) i)
      else
        match decodeFrom bs (i + 2) with
        | .ok tail => .ok ({ op := "LOAD_CONST", A := (A_LOAD_CONST : Int), B := some (((b0 ||| b1 <<< 8) >>> 6 : Nat) : Int) } :: tail)
        | .error e => .error e := by
  simp only [decodeFrom, hob, A_LOAD_CONST]

/-- Inverse-direction invariant of a successful decode, by strong induction
on the byte count: re-encoding reproduces the bytes, and every decoded
LOAD_CONST operand lies in [0, 1023]. -/
theorem decodeFrom_ok_inv :
    ∀ (n : Nat) (code : List Nat), code.length ≤ n →
      (∀ b ∈ code, b < 256) → ∀ (i : Nat) (ir : List IRInstr),
      decodeFrom code i = .ok ir →
      encode ir = code ∧
        ∀ ins ∈ ir, ins.op = "LOAD_CONST" →
          ∃ b : Int, ins.B = some b ∧ 0 ≤ b ∧ b ≤ 1023 := by
  intro n
  induction n with
  | zero =>
    intro code hlen hbytes i ir hdec
    obtain rfl : code = [] := List.eq_nil_of_length_eq_zero (Nat.le_zero.mp hlen)
    cases hdec
    exact ⟨rfl, fun ins hins _ => absurd hins (List.not_mem_nil ins)⟩
  | succ n IH =>
    intro code hlen hbytes i ir hdec
    cases code with
    | nil =>
      cases hdec
      exact ⟨rfl, fun ins hins _ => absurd hins (List.not_mem_nil ins)⟩
    | cons b0 rest =>
      have hb0lt : b0 < 256 := hbytes b0 (List.mem_cons_self b0 rest)
      cases hob : one_byte b0 with
      | some op =>
        rw [decodeFrom_cons_one b0 op hob] at hdec
        cases htail : decodeFrom rest (i + 1) with
        | error e => simp only [htail] at hdec; cases hdec
        | ok tail =>
          simp only [htail] at hdec
          cases hdec
          have hlen1 : rest.length ≤ n := by
            simp only [List.length_cons] at hlen; omega
          have hrest : ∀ b ∈ rest, b < 256 :=
            fun b hb => hbytes b (List.mem_cons_of_mem _ hb)
          obtain ⟨henc, hinv⟩ := IH rest hlen1 hrest (i + 1) tail htail
          rcases one_byte_some b0 op hob with ⟨rfl, rfl⟩ | ⟨rfl, rfl⟩ | ⟨rfl, rfl⟩
          · refine ⟨?_, ?_⟩
            · show encode (READ_MEM :: tail) = 38 :: rest
              rw [encode_cons_read, henc]
            · intro ins hins hop
              rcases List.mem_cons.mp hins with rfl | hins
              · exact absurd hop (by decide)
              · exact hinv ins hins hop
          · refine ⟨?_, ?_⟩
            · show encode (WRITE_MEM :: tail) = 27 :: rest
              rw [encode_cons_write, henc]
            · intro ins hins hop
              rcases List.mem_cons.mp hins with rfl | hins
              · exact absurd hop (by decide)
              · exact hinv ins hins hop
          · refine ⟨?_, ?_⟩
            · show encode (LE :: tail) = 12 :: rest
              rw [encode_cons_le, henc]
            · intro ins hins hop
              rcases List.mem_cons.mp hins with rfl | hins
              · exact absurd hop (by decide)
              · exact hinv ins hins hop
      | none =>
        cases rest with
        | nil =>
          rw [show decodeFrom [b0] i = .error (.truncated i) by
            simp only [decodeFrom, hob]] at hdec
          cases hdec
        | cons b1 rest2 =>
          have hb1lt : b1 < 256 := hbytes b1 (by simp)
          rw [decodeFrom_cons_two b0 b1 hob] at hdec
          by_cases hA : (b0 ||| b1 <<< 8) &&& 63 ≠ 14
          · rw [if_pos hA] at hdec; cases hdec
          · rw [if_neg hA] at hdec
            push_neg at hA
            cases htail : decodeFrom rest2 (i + 2) with
            | error e => simp only [htail] at hdec; cases hdec
            | ok tail =>
              simp only [htail] at hdec
              cases hdec
              have hw : b0 ||| b1 <<< 8 = b0 + 256 * b1 := lor_shl8 b0 b1 hb0lt
              rw [hw, and63_eq_mod] at hA
              have hlen2 : rest2.length ≤ n := by
                simp only [List.length_cons] at hlen; omega
              have hrest2 : ∀ b ∈ rest2, b < 256 :=
                fun b hb => hbytes b (by simp [hb])
              obtain ⟨henc, hinv⟩ := IH rest2 hlen2 hrest2 (i + 2) tail htail
              refine ⟨?_, ?_⟩
              · show encode (LOAD_CONST (((b0 ||| b1 <<< 8) >>> 6 : Nat) : Int) :: tail) =
                  b0 :: b1 :: rest2
                rw [encode_cons_load, hw, shr6_eq_div, henc]
                have e1 : (14 + 64 * ((b0 + 256 * b1) / 64)) % 256 = b0 := by omega
                have e2 : (14 + 64 * ((b0 + 256 * b1) / 64)) / 256 % 256 = b1 := by omega
                rw [e1, e2]
              · intro ins hins hop
                rcases List.mem_cons.mp hins with rfl | hins
                · refine ⟨(((b0 ||| b1 <<< 8) >>> 6 : Nat) : Int), rfl,
                    Int.natCast_nonneg _, ?_⟩
                  have hle : (b0 ||| b1 <<< 8) >>> 6 ≤ 1023 := by
                    rw [hw, shr6_eq_div]; omega
                  exact_mod_cast hle
                · exact hinv ins hins hop

/-- C9: whenever the decoder succeeds on a byte buffer (all entries being
bytes, i.e. below 256), re-encoding the decoded instruction list reproduces
the buffer exactly. -/
theorem C9_encode_of_decode (code : List Nat) (hbytes : ∀ b ∈ code, b < 256)
    (ir : List IRInstr) (h : decode code = .ok ir) : encode ir = code :=
  (decodeFrom_ok_inv code.length code le_rfl hbytes 0 ir h).1

/-- C9 witness: the buffer [0x4E, 0x01, 0x26] decodes to
[LOAD_CONST 5, READ_MEM] and re-encodes to itself. -/
theorem C9_encode_of_decode_witness :
    encode [LOAD_CONST 5, READ_MEM] = [0x4E, 0x01, 0x26] :=
  C9_encode_of_decode [0x4E, 0x01, 0x26] (by decide) [LOAD_CONST 5, READ_MEM] rfl

/-- C10: every LOAD_CONST instruction the decoder emits from a byte buffer
carries an operand in [0, 1023] — the operand is `word >>> 6` of a 16-bit
word, so it can be neither negative nor above 1023. -/
theorem C10_decoded_operand_in_range (code : List Nat)
    (hbytes : ∀ b ∈ code, b < 256) (ir : List IRInstr)
    (h : decode code = .ok ir) :
    ∀ ins ∈ ir, ins.op = "LOAD_CONST" →
      ∃ b : Int, ins.B = some b ∧ 0 ≤ b ∧ b ≤ 1023 :=
  (decodeFrom_ok_inv code.length code le_rfl hbytes 0 ir h).2

/-- C10 witness: the LOAD_CONST decoded from [0x4E, 0x01] has operand 5,
inside [0, 1023]. -/
theorem C10_decoded_operand_in_range_witness :
    ∃ b : Int, (LOAD_CONST 5).B = some b ∧ 0 ≤ b ∧ b ≤ 1023 :=
  C10_decoded_operand_in_range [0x4E, 0x01] (by decide) [LOAD_CONST 5] rfl
    (LOAD_CONST 5) (List.mem_singleton_self _) rfl

end UVM
